import Mathlib

/-!
Verification of the QuizApp scoring and attempt-tracking logic.

This file gives a shallow embedding of the quiz-scoring routine
(`app/utils.py`: `normalize`, `is_fuzzy_correct`, `calculate_score`) and of
the attempt-accounting guards of the submission handler
(`app/blueprints/user.py`: `submit_quiz`), together with theorems checking
the specified properties against those definitions.

Modelling conventions:
- Python strings are Lean `String`s (ASCII semantics for lowercasing and
  whitespace, which is what the quiz data uses).
- Python floats are modelled as exact rationals (`Rat`); the scoring
  arithmetic `(correct / total) * 100` is exact in the range involved.
- Python `dict.get` over the form data is modelled as a function
  `String → Option String`.
- A Python `KeyError` raised by `question["answer"]` / `question["question"]`
  / `question["options"]` on a missing key is modelled by `Except.error`
  carrying the missing key, and JSON question objects are records with
  `Option` fields (a `none` field is an absent key).
-/

namespace QuizApp

/-! ## Character helpers (app/utils.py, normalize) -/

/-- The ASCII whitespace characters matched by the Python regex class backslash-s
and stripped by `str.strip()`. -/
def isWS (c : Char) : Bool :=
  c = ' ' || c = '\t' || c = '\n' || c = '\r' || c = '\x0b' || c = '\x0c'

/-- The two characters removed by the bracket-removal substitution in normalize. -/
def isAngle (c : Char) : Bool :=
  c = '<' || c = '>'

/-- The punctuation class replaced by a space in normalize: hyphen, underscore,
period, comma, semicolon, colon, exclamation and question marks, parentheses,
curly and square brackets, double quote, slash and backslash. -/
def punctChars : List Char :=
  ['-', '_', '.', ',', ';', ':', '!', '?', '(', ')', '\x7b', '\x7d',
   '[', ']', '"', '/', '\\']

/-- Membership in the punctuation class replaced by a space. -/
def isPunct (c : Char) : Bool :=
  punctChars.contains c

/-- Python `str.lower()`, restricted to ASCII letters (per-character). -/
def pyLower (c : Char) : Char :=
  if 'A' ≤ c && c ≤ 'Z' then Char.ofNat (c.toNat + 32) else c

/-- One character of the punctuation-to-space substitution. -/
def punctRepl (c : Char) : Char :=
  if isPunct c then ' ' else c

/-! ## Whitespace collapsing and stripping -/

/-- The whitespace-collapsing substitution in normalize: replace each maximal
run of whitespace by a single space.  The flag records whether the previous
character was part of a whitespace run. -/
def collapseWS : Bool → List Char → List Char
  | _, [] => []
  | prevWS, c :: cs =>
    if isWS c then
      if prevWS then collapseWS true cs else ' ' :: collapseWS true cs
    else c :: collapseWS false cs

/-- Remove trailing whitespace (the right half of `str.strip()`). -/
def rstripWS : List Char → List Char
  | [] => []
  | c :: cs =>
    match rstripWS cs with
    | [] => if isWS c then [] else [c]
    | d :: ds => c :: d :: ds

/-- Python `str.strip()` on a character list: drop leading and trailing
whitespace. -/
def stripWS (l : List Char) : List Char :=
  rstripWS (l.dropWhile fun c => isWS c)

/-- Python `str.strip()`. -/
def pyStrip (s : String) : String :=
  ⟨stripWS s.data⟩

/-- Python `str.lower()` on a whole string. -/
def pyLowerStr (s : String) : String :=
  ⟨s.data.map pyLower⟩

/-! ## normalize (app/utils.py lines 44-59) -/

/-- The normalization pipeline on a character list: lowercase, drop angle
brackets, replace punctuation by spaces, collapse whitespace runs, strip. -/
def normalizeList (l : List Char) : List Char :=
  stripWS (collapseWS false
    (((l.map pyLower).filter fun c => !isAngle c).map punctRepl))

/-- `normalize(text)` from app/utils.py: the `if not text: return ""` guard
followed by the lowercase / bracket-removal / punctuation-substitution /
whitespace-collapse / strip pipeline. -/
def normalize (s : String) : String :=
  if s.data.isEmpty then "" else ⟨normalizeList s.data⟩

/-! ## Fuzzy matching (app/utils.py lines 62-65; rapidfuzz `fuzz.ratio`) -/

/-- Indel (insert/delete only) edit distance, fuelled so that it is
structurally recursive; `fuel = |xs| + |ys|` always suffices because each
recursive call shrinks the combined length. -/
def indelDistFuel : Nat → List Char → List Char → Nat
  | _, [], ys => ys.length
  | _, x :: xs, [] => (x :: xs).length
  | 0, xs, ys => xs.length + ys.length
  | fuel + 1, x :: xs, y :: ys =>
    if x = y then indelDistFuel fuel xs ys
    else 1 + min (indelDistFuel fuel xs (y :: ys)) (indelDistFuel fuel (x :: xs) ys)

/-- Indel edit distance between two character lists. -/
def indelDist (xs ys : List Char) : Nat :=
  indelDistFuel (xs.length + ys.length) xs ys

/-- rapidfuzz `fuzz.ratio`: normalized indel similarity on a 0-100 scale;
two empty strings have distance 0 over total length 0, which rapidfuzz
defines as similarity 100. -/
def fuzz_ratio (a b : String) : Rat :=
  let lsum : Nat := a.data.length + b.data.length
  if lsum = 0 then 100
  else 100 * (1 - (indelDist a.data b.data : Rat) / (lsum : Rat))

/-- `is_fuzzy_correct(user_answer, correct_answer, threshold=85)` from
app/utils.py: fuzzy ratio of the normalized strings against the threshold. -/
def is_fuzzy_correct (user_answer correct_answer : String) (threshold : Rat) : Bool :=
  threshold ≤ fuzz_ratio (normalize user_answer) (normalize correct_answer)

/-! ## Quiz data model (JSON question files, app/utils.py lines 86-154) -/

/-- A fill-in-the-blank JSON entry; `none` models an absent key. -/
structure RawFibQuestion where
  question : Option String
  answer : Option String
deriving DecidableEq, Repr

/-- A true/false JSON entry; `none` models an absent key. -/
structure RawTFQuestion where
  question : Option String
  answer : Option Bool
deriving DecidableEq, Repr

/-- A multiple-choice JSON entry; `none` models an absent key. -/
structure RawMCQQuestion where
  question : Option String
  options : Option (List String)
  answer : Option String
deriving DecidableEq, Repr

/-- The quiz JSON object; a `none` list models an absent top-level key
(`if "fill_in_the_blanks" in exam_data` etc.). -/
structure ExamData where
  fill_in_the_blanks : Option (List RawFibQuestion)
  true_false : Option (List RawTFQuestion)
  mcqs : Option (List RawMCQQuestion)
deriving DecidableEq, Repr

/-- The submitted form data `dict(form_data)`: a lookup from key to raw
string value. -/
def SubmittedAnswers : Type :=
  String → Option String

/-- The form key fib_N for the fill-in-the-blank question at index N. -/
def fibKey (idx : Nat) : String :=
  "fib_" ++ toString idx

/-- The form key tf_N for the true/false question at index N. -/
def tfKey (idx : Nat) : String :=
  "tf_" ++ toString idx

/-- The form key mcq_N for the multiple-choice question at index N. -/
def mcqKey (idx : Nat) : String :=
  "mcq_" ++ toString idx

/-- A Python exception escaping `calculate_score`: a `KeyError` on a missing
question field. -/
inductive PyError where
  | keyError (key : String)
deriving DecidableEq, Repr

deriving instance DecidableEq for Except

/-- One entry of `results["fill_in_the_blanks"]`. -/
structure FibResult where
  question : String
  user_answer : String
  correct_answer : String
  is_correct : Bool
deriving DecidableEq, Repr

/-- One entry of `results["true_false"]`; the stored `user_answer` is the
value of the Python variable after `user_answer = user_answer.lower() ==
"true"`, i.e. `None` (here `none`) when the key was absent and a boolean
otherwise. -/
structure TFResult where
  question : String
  user_answer : Option Bool
  correct_answer : Bool
  is_correct : Bool
deriving DecidableEq, Repr

/-- One entry of `results["mcqs"]`. -/
structure MCQResult where
  question : String
  options : List String
  user_answer : String
  correct_answer : String
  is_correct : Bool
deriving DecidableEq, Repr

/-- The `results` dictionary built by `calculate_score`. -/
structure ScoreResults where
  fill_in_the_blanks : List FibResult
  true_false : List TFResult
  mcqs : List MCQResult
deriving DecidableEq, Repr

/-- The body of the fill-in-the-blank loop (app/utils.py lines 98-111) for
one question: read and strip the fib_N form value, strip the expected answer
field (KeyError when absent), fuzzy-match, then build the result dict
(KeyError when the question-text field is absent). -/
def fibEntry (user_answers : SubmittedAnswers) (idx : Nat) (q : RawFibQuestion) :
    Except PyError FibResult :=
  let user_answer := pyStrip ((user_answers (fibKey idx)).getD "")
  match q.answer with
  | none => .error (.keyError "answer")
  | some a =>
    let correct_answer := pyStrip a
    let is_correct := is_fuzzy_correct user_answer correct_answer 85
    match q.question with
    | none => .error (.keyError "question")
    | some qt =>
      .ok { question := qt, user_answer := user_answer,
            correct_answer := correct_answer, is_correct := is_correct }

/-- The body of the true/false loop (app/utils.py lines 115-129) for one
question: the lookup of the tf_N form value may yield `None`; a present value
is lowercased and compared to the literal string true; the Python comparison
of `None` with a boolean is `False`, which is the `none` case of the
`Option Bool` equality below. -/
def tfEntry (user_answers : SubmittedAnswers) (idx : Nat) (q : RawTFQuestion) :
    Except PyError TFResult :=
  let user_answer : Option Bool :=
    (user_answers (tfKey idx)).map fun s => pyLowerStr s == "true"
  match q.answer with
  | none => .error (.keyError "answer")
  | some b =>
    let is_correct := user_answer == some b
    match q.question with
    | none => .error (.keyError "question")
    | some qt =>
      .ok { question := qt, user_answer := user_answer,
            correct_answer := b, is_correct := is_correct }

/-- The body of the MCQ loop (app/utils.py lines 133-146) for one question:
read the mcq_N form value (default the empty string), compare by exact
string equality, then
build the result dict (the dict literal reads `question["question"]` before
`question["options"]`). -/
def mcqEntry (user_answers : SubmittedAnswers) (idx : Nat) (q : RawMCQQuestion) :
    Except PyError MCQResult :=
  let user_answer := (user_answers (mcqKey idx)).getD ""
  match q.answer with
  | none => .error (.keyError "answer")
  | some a =>
    let is_correct := user_answer == a
    match q.question with
    | none => .error (.keyError "question")
    | some qt =>
      match q.options with
      | none => .error (.keyError "options")
      | some opts =>
        .ok { question := qt, options := opts, user_answer := user_answer,
              correct_answer := a, is_correct := is_correct }

/-- `for idx, question in enumerate(...)`: apply an indexed entry function to
every question, propagating the first raised error. -/
def mapIdx {α β : Type} (f : Nat → α → Except PyError β) :
    Nat → List α → Except PyError (List β)
  | _, [] => .ok []
  | i, q :: qs =>
    match f i q with
    | .error e => .error e
    | .ok r =>
      match mapIdx f (i + 1) qs with
      | .error e => .error e
      | .ok rs => .ok (r :: rs)

/-- The percentage computation of app/utils.py lines 148-152:
`(correct_answers / total_questions) * 100` guarded by
`total_questions > 0`, else 0. -/
def percentageOf (correct_answers total_questions : Nat) : Rat :=
  if total_questions > 0 then
    ((correct_answers : Rat) / (total_questions : Rat)) * 100
  else 0

/-- `calculate_score(exam_data, user_answers)` from app/utils.py lines
86-154: process the three question sections in order (an exception in an
earlier section aborts the call), count questions and correct answers
(`total_questions` is the number of result entries, `correct_answers` the
number with `is_correct`), and apply the guarded percentage computation. -/
def calculate_score (exam_data : ExamData) (user_answers : SubmittedAnswers) :
    Except PyError (Rat × ScoreResults) :=
  match mapIdx (fibEntry user_answers) 0 (exam_data.fill_in_the_blanks.getD []),
        mapIdx (tfEntry user_answers) 0 (exam_data.true_false.getD []),
        mapIdx (mcqEntry user_answers) 0 (exam_data.mcqs.getD []) with
  | .error e, _, _ => .error e
  | .ok _, .error e, _ => .error e
  | .ok _, .ok _, .error e => .error e
  | .ok fibs, .ok tfs, .ok ms =>
    .ok (percentageOf
      ((fibs.countP fun r => r.is_correct) + (tfs.countP fun r => r.is_correct) +
        (ms.countP fun r => r.is_correct))
      (fibs.length + tfs.length + ms.length),
      { fill_in_the_blanks := fibs, true_false := tfs, mcqs := ms })

/-! ## Attempt tracking (app/blueprints/user.py, submit_quiz) -/

/-- A prior result row for a (user, quiz) pair; only the submission
timestamp matters to the guards, modelled in seconds. -/
structure AttemptRecord where
  submittedAt : Int
deriving DecidableEq, Repr

/-- `attemptCount(history)`: the `db.query(Result)...count()` of prior
results for the pair. -/
def attemptCount (history : List AttemptRecord) : Nat :=
  history.length

/-- `attempt_number = attempt_count + 1` (app/blueprints/user.py line 235). -/
def nextAttemptNumber (history : List AttemptRecord) : Nat :=
  attemptCount history + 1

/-- The max-attempts gate (app/blueprints/user.py lines 213-220): the
submission is allowed unless `attempt_count >= max_attempts`. -/
def canAttempt (history : List AttemptRecord) (maxAttempts : Nat) : Bool :=
  !(attemptCount history ≥ maxAttempts)

/-- The duplicate-submission guard (app/blueprints/user.py lines 164-177):
a duplicate is flagged when some prior result for the pair has
`submitted_at >= now - window`; the source instantiates `window` with
5 seconds (`timedelta(seconds=5)`). -/
def isDuplicateSubmission (history : List AttemptRecord) (now window : Int) : Bool :=
  history.any fun r => now - window ≤ r.submittedAt

/-- Modelled from the spec refinement target, for comparison with
`isDuplicateSubmission`: true iff `mostRecentAttempt` exists and
`nowTimestamp - mostRecentAttempt.submittedAt < policy.duplicateWindowSeconds`
(strict inequality), with `mostRecentAttempt` the last element of the
time-ordered history. -/
def isDuplicateSubmissionSpec (history : List AttemptRecord) (now window : Int) : Bool :=
  match history.getLast? with
  | none => false
  | some r => now - r.submittedAt < window

/-- The stale-attempt-token guard (app/blueprints/user.py line 192):
`current_attempt_num <= existing_attempts_count`. -/
def isStaleAttemptToken (claimed : Int) (history : List AttemptRecord) : Bool :=
  claimed ≤ (attemptCount history : Int)

/-- History is ordered by submission time (ascending, adjacent pairs). -/
def sortedByTime : List AttemptRecord → Bool
  | [] => true
  | [_] => true
  | a :: b :: t => (a.submittedAt ≤ b.submittedAt) && sortedByTime (b :: t)

/-- Modelled from the spec for comparison in the true/false refinement: the
claimed interpretation of a submitted true/false value, where an absent key
is "treated as false". -/
def tfInterpSpec (v : Option String) : Bool :=
  match v with
  | none => false
  | some s => pyLowerStr s == "true"

/-- Well-formedness of a quiz definition: every question entry has all the
fields `calculate_score` reads. -/
def wellFormedExam (e : ExamData) : Bool :=
  ((e.fill_in_the_blanks.getD []).all fun q => q.question.isSome && q.answer.isSome) &&
  ((e.true_false.getD []).all fun q => q.question.isSome && q.answer.isSome) &&
  ((e.mcqs.getD []).all fun q => q.question.isSome && q.answer.isSome && q.options.isSome)

/-- A quiz definition with a question entry that is missing a required field
in the sense of the spec (no "answer" key or no "question" key). -/
def hasMissingField (e : ExamData) : Bool :=
  ((e.fill_in_the_blanks.getD []).any fun q => !q.question.isSome || !q.answer.isSome) ||
  ((e.true_false.getD []).any fun q => !q.question.isSome || !q.answer.isSome) ||
  ((e.mcqs.getD []).any fun q => !q.question.isSome || !q.answer.isSome)

/-! ## Lemmas about the text pipeline -/

/-- Characters that survive one pass of the pipeline: fixed by lowercasing,
not an angle bracket, not punctuation, and whitespace only as a space. -/
def normalChar (c : Char) : Bool :=
  (pyLower c == c) && !isAngle c && !isPunct c && (!isWS c || c == ' ')

/-- Adjacent characters are never both whitespace. -/
def noTwoWS : List Char → Bool
  | [] => true
  | [_] => true
  | a :: b :: t => !(isWS a && isWS b) && noTwoWS (b :: t)

theorem pyLower_idem (c : Char) : pyLower (pyLower c) = pyLower c := by
  unfold pyLower
  by_cases h : ('A' ≤ c && c ≤ 'Z') = true
  · simp only [h, if_true]
    have h1 : 65 ≤ c.toNat := by
      have := ((Bool.and_eq_true _ _).mp h).1
      simpa [Char.le_def] using this
    have h2 : c.toNat ≤ 90 := by
      have := ((Bool.and_eq_true _ _).mp h).2
      simpa [Char.le_def] using this
    interval_cases h3 : c.toNat <;> simp_all
  · have hb : ('A' ≤ c && c ≤ 'Z') = false := by simpa using h
    simp [hb]

theorem mem_collapseWS {c : Char} :
    ∀ (prev : Bool) (l : List Char), c ∈ collapseWS prev l →
      c = ' ' ∨ (c ∈ l ∧ isWS c = false) := by
  intro prev l
  induction l generalizing prev with
  | nil => intro h; cases h
  | cons a t ih =>
    intro h
    by_cases ha : isWS a = true
    · cases prev with
      | true =>
        simp only [collapseWS, ha, if_true] at h
        rcases ih true h with h' | ⟨hm, hw⟩
        · exact Or.inl h'
        · exact Or.inr ⟨List.mem_cons_of_mem _ hm, hw⟩
      | false =>
        simp only [collapseWS, ha, if_true] at h
        rcases List.mem_cons.mp h with h' | h'
        · exact Or.inl h'
        · rcases ih true h' with h'' | ⟨hm, hw⟩
          · exact Or.inl h''
          · exact Or.inr ⟨List.mem_cons_of_mem _ hm, hw⟩
    · simp only [collapseWS, ha, if_false, Bool.false_eq_true] at h
      rcases List.mem_cons.mp h with h' | h'
      · subst h'
        exact Or.inr ⟨List.mem_cons_self _ _, Bool.eq_false_iff.mpr ha⟩
      · rcases ih false h' with h'' | ⟨hm, hw⟩
        · exact Or.inl h''
        · exact Or.inr ⟨List.mem_cons_of_mem _ hm, hw⟩

theorem head_collapseWS_true {c : Char} :
    ∀ l : List Char, (collapseWS true l).head? = some c → isWS c = false := by
  intro l
  induction l with
  | nil => intro h; cases h
  | cons a t ih =>
    intro h
    by_cases ha : isWS a = true
    · simp only [collapseWS, ha, if_true] at h
      exact ih h
    · simp only [collapseWS, ha, if_false, Bool.false_eq_true, List.head?_cons,
        Option.some.injEq] at h
      subst h
      exact Bool.eq_false_iff.mpr ha

theorem noTwoWS_tail {a : Char} {l : List Char}
    (h : noTwoWS (a :: l) = true) : noTwoWS l = true := by
  cases l with
  | nil => rfl
  | cons b t => exact (Bool.and_eq_true _ _ |>.mp h).2

theorem noTwoWS_cons_of_head {a : Char} {l : List Char}
    (h : noTwoWS l = true)
    (hh : ∀ c, l.head? = some c → (isWS a && isWS c) = false) :
    noTwoWS (a :: l) = true := by
  cases l with
  | nil => rfl
  | cons b t =>
    have h1 : (isWS a && isWS b) = false := hh b rfl
    simp only [noTwoWS, h1, Bool.not_false, Bool.true_and]
    exact h

theorem noTwoWS_head_of_cons {a : Char} {l : List Char}
    (h : noTwoWS (a :: l) = true) (ha : isWS a = true) :
    ∀ c, l.head? = some c → isWS c = false := by
  cases l with
  | nil => intro c hc; cases hc
  | cons b t =>
    intro c hc
    simp only [List.head?_cons, Option.some.injEq] at hc
    subst hc
    have := (Bool.and_eq_true _ _ |>.mp h).1
    simp only [ha, Bool.true_and, Bool.not_eq_eq_eq_not, Bool.not_true] at this
    exact this

theorem noTwoWS_collapseWS : ∀ (prev : Bool) (l : List Char),
    noTwoWS (collapseWS prev l) = true := by
  intro prev l
  induction l generalizing prev with
  | nil => rfl
  | cons a t ih =>
    by_cases ha : isWS a = true
    · cases prev with
      | true => simpa only [collapseWS, ha, if_true] using ih true
      | false =>
        simp only [collapseWS, ha, if_true]
        refine noTwoWS_cons_of_head (ih true) ?_
        intro c hc
        have := head_collapseWS_true t hc
        simp [this]
    · simp only [collapseWS, ha, if_false, Bool.false_eq_true]
      refine noTwoWS_cons_of_head (ih false) ?_
      intro c _
      simp [Bool.eq_false_iff.mpr ha]

theorem mem_of_mem_dropWhileWS {c : Char} {p : Char → Bool} :
    ∀ l : List Char, c ∈ l.dropWhile p → c ∈ l := by
  intro l
  induction l with
  | nil => exact fun h => h
  | cons a t ih =>
    intro h
    by_cases ha : p a = true
    · simp only [List.dropWhile_cons, ha, if_true] at h
      exact List.mem_cons_of_mem _ (ih h)
    · simp only [List.dropWhile_cons, ha, if_false, Bool.false_eq_true] at h
      exact h

theorem head_dropWhileWS {c : Char} {p : Char → Bool} :
    ∀ l : List Char, (l.dropWhile p).head? = some c → p c = false := by
  intro l
  induction l with
  | nil => intro h; cases h
  | cons a t ih =>
    intro h
    by_cases ha : p a = true
    · simp only [List.dropWhile_cons, ha, if_true] at h
      exact ih h
    · simp only [List.dropWhile_cons, ha, if_false, Bool.false_eq_true,
        List.head?_cons, Option.some.injEq] at h
      subst h
      exact Bool.eq_false_iff.mpr ha

theorem noTwoWS_dropWhileWS {p : Char → Bool} :
    ∀ l : List Char, noTwoWS l = true → noTwoWS (l.dropWhile p) = true := by
  intro l
  induction l with
  | nil => exact fun h => h
  | cons a t ih =>
    intro h
    by_cases ha : p a = true
    · simp only [List.dropWhile_cons, ha, if_true]
      exact ih (noTwoWS_tail h)
    · simpa only [List.dropWhile_cons, ha, if_false, Bool.false_eq_true] using h

theorem dropWhileWS_eq_self {p : Char → Bool} {l : List Char}
    (h : ∀ c, l.head? = some c → p c = false) : l.dropWhile p = l := by
  cases l with
  | nil => rfl
  | cons a t =>
    have := h a rfl
    simp [List.dropWhile_cons, this]

theorem mem_rstripWS {c : Char} : ∀ l : List Char, c ∈ rstripWS l → c ∈ l := by
  intro l
  induction l with
  | nil => exact fun h => h
  | cons a t ih =>
    intro h
    simp only [rstripWS] at h
    rcases hr : rstripWS t with _ | ⟨d, ds⟩
    · rw [hr] at h
      by_cases ha : isWS a = true
      · simp [ha] at h
      · simp only [ha, Bool.false_eq_true, if_false, List.mem_singleton] at h
        subst h
        exact List.mem_cons_self _ _
    · rw [hr] at h
      rcases List.mem_cons.mp h with h' | h'
      · subst h'
        exact List.mem_cons_self _ _
      · exact List.mem_cons_of_mem _ (ih (hr ▸ h'))

theorem getLast_rstripWS {c : Char} :
    ∀ l : List Char, (rstripWS l).getLast? = some c → isWS c = false := by
  intro l
  induction l with
  | nil => intro h; cases h
  | cons a t ih =>
    intro h
    simp only [rstripWS] at h
    rcases hr : rstripWS t with _ | ⟨d, ds⟩
    · rw [hr] at h
      by_cases ha : isWS a = true
      · simp [ha] at h
      · simp only [ha, Bool.false_eq_true, if_false, List.getLast?_singleton,
          Option.some.injEq] at h
        subst h
        exact Bool.eq_false_iff.mpr ha
    · rw [hr] at h
      rw [List.getLast?_cons_cons] at h
      exact ih (hr ▸ h)

theorem rstripWS_cons_shape {d : Char} {ds : List Char} :
    ∀ l : List Char, rstripWS l = d :: ds → ∃ t, l = d :: t := by
  intro l h
  cases l with
  | nil => cases h
  | cons a t =>
    simp only [rstripWS] at h
    rcases hr : rstripWS t with _ | ⟨e, es⟩
    · rw [hr] at h
      by_cases ha : isWS a = true
      · simp [ha] at h
      · simp only [ha, Bool.false_eq_true, if_false, List.cons.injEq] at h
        exact ⟨t, by rw [h.1]⟩
    · rw [hr] at h
      simp only [List.cons.injEq] at h
      exact ⟨t, by rw [h.1]⟩

theorem noTwoWS_rstripWS : ∀ l : List Char,
    noTwoWS l = true → noTwoWS (rstripWS l) = true := by
  intro l
  induction l with
  | nil => exact fun h => h
  | cons a t ih =>
    intro h
    simp only [rstripWS]
    rcases hr : rstripWS t with _ | ⟨d, ds⟩
    · by_cases ha : isWS a = true
      · simp [ha, noTwoWS]
      · simp [ha, noTwoWS]
    · refine noTwoWS_cons_of_head (hr ▸ ih (noTwoWS_tail h)) ?_
      intro c hc
      simp only [List.head?_cons, Option.some.injEq] at hc
      subst hc
      obtain ⟨t', ht'⟩ := rstripWS_cons_shape t hr
      subst ht'
      cases h2 : isWS a
      · simp
      · simp only [h2, Bool.true_and]
        have := noTwoWS_head_of_cons h h2 d rfl
        simp [this]

theorem rstripWS_eq_self : ∀ l : List Char,
    (∀ c, l.getLast? = some c → isWS c = false) → rstripWS l = l := by
  intro l
  induction l with
  | nil => intro _; rfl
  | cons a t ih =>
    intro h
    simp only [rstripWS]
    cases t with
    | nil =>
      have := h a rfl
      simp [rstripWS, this]
    | cons b t' =>
      have ht : rstripWS (b :: t') = b :: t' := by
        refine ih ?_
        intro c hc
        exact h c (by rw [List.getLast?_cons_cons]; exact hc)
      rw [ht]

theorem collapseWS_eq_self : ∀ l : List Char,
    (∀ c ∈ l, isWS c = true → c = ' ') → noTwoWS l = true →
    ∀ prev : Bool, (prev = true → ∀ c, l.head? = some c → isWS c = false) →
    collapseWS prev l = l := by
  intro l
  induction l with
  | nil => intro _ _ prev _; rfl
  | cons a t ih =>
    intro hws hn prev hprev
    by_cases ha : isWS a = true
    · cases prev with
      | true =>
        have := hprev rfl a rfl
        rw [this] at ha
        cases ha
      | false =>
        have haSp : a = ' ' := hws a (List.mem_cons_self _ _) ha
        have ht : collapseWS true t = t :=
          ih (fun c hc => hws c (List.mem_cons_of_mem _ hc)) (noTwoWS_tail hn) true
            (fun _ => noTwoWS_head_of_cons hn ha)
        simp [collapseWS, ha, ht, haSp]
        intro hsp
        exact absurd hsp (by decide)
    · have ht : collapseWS false t = t :=
        ih (fun c hc => hws c (List.mem_cons_of_mem _ hc)) (noTwoWS_tail hn) false
          (by intro hh; cases hh)
      simp [collapseWS, ha, ht]

theorem map_eq_self_of {f : Char → Char} : ∀ l : List Char,
    (∀ c ∈ l, f c = c) → l.map f = l := by
  intro l
  induction l with
  | nil => intro _; rfl
  | cons a t ih =>
    intro h
    simp only [List.map_cons]
    rw [h a (List.mem_cons_self _ _), ih (fun c hc => h c (List.mem_cons_of_mem _ hc))]

theorem filter_eq_self_of {p : Char → Bool} : ∀ l : List Char,
    (∀ c ∈ l, p c = true) → l.filter p = l := by
  intro l
  induction l with
  | nil => intro _; rfl
  | cons a t ih =>
    intro h
    simp only [List.filter_cons, h a (List.mem_cons_self _ _), if_true]
    rw [ih (fun c hc => h c (List.mem_cons_of_mem _ hc))]

theorem normalChar_parts {c : Char} (h : normalChar c = true) :
    pyLower c = c ∧ isAngle c = false ∧ isPunct c = false ∧
      (isWS c = true → c = ' ') := by
  simp only [normalChar, Bool.and_eq_true, Bool.or_eq_true, beq_iff_eq,
    Bool.not_eq_true'] at h
  obtain ⟨⟨⟨h1, h2⟩, h3⟩, h4⟩ := h
  refine ⟨h1, h2, h3, ?_⟩
  intro hws
  rcases h4 with h4 | h4
  · rw [hws] at h4; cases h4
  · exact h4

theorem stage_char {l : List Char} {c : Char}
    (h : c ∈ ((l.map pyLower).filter fun c => !isAngle c).map punctRepl) :
    pyLower c = c ∧ isAngle c = false ∧ isPunct c = false := by
  rcases List.mem_map.mp h with ⟨b, hb, hbc⟩
  rcases List.mem_filter.mp hb with ⟨hbm, hbang⟩
  rcases List.mem_map.mp hbm with ⟨a, _, hab⟩
  by_cases hp : isPunct b = true
  · have hsp : c = ' ' := by rw [← hbc]; simp [punctRepl, hp]
    subst hsp
    exact ⟨by decide, by decide, by decide⟩
  · have hcb : c = b := by rw [← hbc]; simp [punctRepl, hp]
    subst hcb
    refine ⟨?_, ?_, Bool.eq_false_iff.mpr hp⟩
    · rw [← hab]; exact pyLower_idem a
    · simpa using hbang

theorem normalChar_normalizeList {l : List Char} {c : Char}
    (h : c ∈ normalizeList l) : normalChar c = true := by
  unfold normalizeList stripWS at h
  have h1 := mem_of_mem_dropWhileWS _ (mem_rstripWS _ h)
  rcases mem_collapseWS false _ h1 with hsp | ⟨hmem, hnws⟩
  · subst hsp; decide
  · obtain ⟨hlow, hang, hpun⟩ := stage_char hmem
    simp [normalChar, hlow, hang, hpun, hnws]

theorem head_normalizeList {l : List Char} {c : Char}
    (h : (normalizeList l).head? = some c) : isWS c = false := by
  unfold normalizeList stripWS at h
  rcases hr : rstripWS ((collapseWS false
      (((l.map pyLower).filter fun c => !isAngle c).map punctRepl)).dropWhile
        fun c => isWS c) with _ | ⟨d, ds⟩
  · rw [hr] at h; cases h
  · rw [hr] at h
    simp only [List.head?_cons, Option.some.injEq] at h
    subst h
    obtain ⟨t, ht⟩ := rstripWS_cons_shape _ hr
    exact head_dropWhileWS _ (by rw [ht]; rfl)

theorem getLast_normalizeList {l : List Char} {c : Char}
    (h : (normalizeList l).getLast? = some c) : isWS c = false := by
  unfold normalizeList stripWS at h
  exact getLast_rstripWS _ h

theorem noTwoWS_normalizeList (l : List Char) :
    noTwoWS (normalizeList l) = true := by
  unfold normalizeList stripWS
  exact noTwoWS_rstripWS _ (noTwoWS_dropWhileWS _ (noTwoWS_collapseWS false _))

theorem normalizeList_eq_self {l : List Char}
    (hchar : ∀ c ∈ l, normalChar c = true)
    (hn : noTwoWS l = true)
    (hh : ∀ c, l.head? = some c → isWS c = false)
    (hl : ∀ c, l.getLast? = some c → isWS c = false) :
    normalizeList l = l := by
  have h1 : l.map pyLower = l :=
    map_eq_self_of l fun c hc => (normalChar_parts (hchar c hc)).1
  have h2 : (l.filter fun c => !isAngle c) = l := by
    refine filter_eq_self_of l ?_
    intro c hc
    simp [(normalChar_parts (hchar c hc)).2.1]
  have h3 : l.map punctRepl = l := by
    refine map_eq_self_of l ?_
    intro c hc
    simp [punctRepl, (normalChar_parts (hchar c hc)).2.2.1]
  have h4 : collapseWS false l = l :=
    collapseWS_eq_self l (fun c hc => (normalChar_parts (hchar c hc)).2.2.2) hn false
      (by intro hf; cases hf)
  have h5 : (l.dropWhile fun c => isWS c) = l := dropWhileWS_eq_self hh
  unfold normalizeList stripWS
  rw [h1, h2, h3, h4, h5]
  exact rstripWS_eq_self l hl

theorem normalizeList_idem (l : List Char) :
    normalizeList (normalizeList l) = normalizeList l :=
  normalizeList_eq_self (fun _ hc => normalChar_normalizeList hc)
    (noTwoWS_normalizeList l) (fun _ h => head_normalizeList h)
    (fun _ h => getLast_normalizeList h)

/-- A character that disappears under normalization: after lowercasing it is
an angle bracket (removed), punctuation (turned into a space and collapsed or
stripped), or whitespace. -/
def vanishChar (c : Char) : Bool :=
  isAngle (pyLower c) || isPunct (pyLower c) || isWS (pyLower c)

theorem mem_collapseWS_of_not_ws {c : Char} (hc : isWS c = false) :
    ∀ (prev : Bool) (l : List Char), c ∈ l → c ∈ collapseWS prev l := by
  intro prev l
  induction l generalizing prev with
  | nil => intro h; cases h
  | cons a t ih =>
    intro h
    by_cases ha : isWS a = true
    · have hct : c ∈ t := by
        rcases List.mem_cons.mp h with rfl | h'
        · rw [ha] at hc; cases hc
        · exact h'
      cases prev with
      | true =>
        simp only [collapseWS, ha, if_true]
        exact ih true hct
      | false =>
        simp only [collapseWS, ha, if_true]
        exact List.mem_cons_of_mem _ (ih true hct)
    · simp only [collapseWS, ha, if_false, Bool.false_eq_true]
      rcases List.mem_cons.mp h with rfl | h'
      · exact List.mem_cons_self _ _
      · exact List.mem_cons_of_mem _ (ih false h')

theorem mem_dropWhile_of_not {c : Char} {p : Char → Bool} (hc : p c = false) :
    ∀ l : List Char, c ∈ l → c ∈ l.dropWhile p := by
  intro l
  induction l with
  | nil => intro h; cases h
  | cons a t ih =>
    intro h
    by_cases ha : p a = true
    · simp only [List.dropWhile_cons, ha, if_true]
      rcases List.mem_cons.mp h with rfl | h'
      · rw [ha] at hc; cases hc
      · exact ih h'
    · simpa only [List.dropWhile_cons, ha, if_false, Bool.false_eq_true] using h

theorem mem_rstripWS_of_not_ws {c : Char} (hc : isWS c = false) :
    ∀ l : List Char, c ∈ l → c ∈ rstripWS l := by
  intro l
  induction l with
  | nil => intro h; cases h
  | cons a t ih =>
    intro h
    simp only [rstripWS]
    rcases List.mem_cons.mp h with rfl | h'
    · rcases hr : rstripWS t with _ | ⟨d, ds⟩
      · simp [hc]
      · exact List.mem_cons_self _ _
    · have h2 := ih h'
      rcases hr : rstripWS t with _ | ⟨d, ds⟩
      · rw [hr] at h2; cases h2
      · rw [hr] at h2
        exact List.mem_cons_of_mem _ h2

theorem collapseWS_true_all_ws : ∀ l : List Char, (∀ c ∈ l, isWS c = true) →
    collapseWS true l = [] := by
  intro l
  induction l with
  | nil => intro _; rfl
  | cons a t ih =>
    intro h
    simp only [collapseWS, h a (List.mem_cons_self _ _), if_true]
    exact ih fun c hc => h c (List.mem_cons_of_mem _ hc)

theorem collapseWS_false_all_ws : ∀ l : List Char, (∀ c ∈ l, isWS c = true) →
    collapseWS false l = [] ∨ collapseWS false l = [' '] := by
  intro l
  cases l with
  | nil => exact fun _ => Or.inl rfl
  | cons a t =>
    intro h
    right
    have ht := collapseWS_true_all_ws t fun c hc => h c (List.mem_cons_of_mem _ hc)
    simp [collapseWS, h a (List.mem_cons_self _ _), ht]

theorem stage_all_ws {l : List Char} (h : ∀ c ∈ l, vanishChar c = true) :
    ∀ c ∈ ((l.map pyLower).filter fun c => !isAngle c).map punctRepl,
      isWS c = true := by
  intro c hc
  rcases List.mem_map.mp hc with ⟨b, hb, hbc⟩
  rcases List.mem_filter.mp hb with ⟨hbm, hbang⟩
  rcases List.mem_map.mp hbm with ⟨a, ham, hab⟩
  have hbang' : isAngle b = false := by simpa using hbang
  by_cases hp : isPunct b = true
  · have hb' : punctRepl b = ' ' := by simp [punctRepl, hp]
    rw [← hbc, hb']
    decide
  · have hcb : c = b := by rw [← hbc]; simp [punctRepl, hp]
    subst hcb
    have hv := h a ham
    simp only [vanishChar, hab, Bool.or_eq_true] at hv
    rcases hv with (hang | hpun) | hws
    · rw [hang] at hbang'; cases hbang'
    · rw [hpun] at hp; exact absurd rfl hp
    · exact hws

theorem normalizeList_nil_of_vanish {l : List Char}
    (h : ∀ c ∈ l, vanishChar c = true) : normalizeList l = [] := by
  unfold normalizeList stripWS
  rcases collapseWS_false_all_ws _ (stage_all_ws h) with h0 | h0 <;> rw [h0] <;> rfl

theorem vanish_of_normalizeList_nil {l : List Char}
    (h : normalizeList l = []) : ∀ c ∈ l, vanishChar c = true := by
  intro c hcl
  by_contra hv
  have hv' : vanishChar c = false := Bool.eq_false_iff.mpr hv
  simp only [vanishChar, Bool.or_eq_false_iff] at hv'
  obtain ⟨⟨hang, hpun⟩, hws⟩ := hv'
  have h1 : pyLower c ∈ l.map pyLower := List.mem_map_of_mem _ hcl
  have h2 : pyLower c ∈ (l.map pyLower).filter fun c => !isAngle c :=
    List.mem_filter.mpr ⟨h1, by simp [hang]⟩
  have h3 : pyLower c ∈ ((l.map pyLower).filter fun c => !isAngle c).map punctRepl := by
    have hm := List.mem_map_of_mem punctRepl h2
    rwa [show punctRepl (pyLower c) = pyLower c from by simp [punctRepl, hpun]] at hm
  have h4 := mem_collapseWS_of_not_ws hws false _ h3
  have h5 := mem_dropWhile_of_not hws _ h4
  have h6 := mem_rstripWS_of_not_ws hws _ h5
  have h7 : pyLower c ∈ normalizeList l := h6
  rw [h] at h7
  cases h7

theorem normalize_pyStrip_empty {s : String} (h : normalize s = "") :
    normalize (pyStrip s) = "" := by
  unfold normalize at h ⊢
  by_cases h0 : s.data.isEmpty = true
  · have hd : s.data = [] := by
      cases hs : s.data
      · rfl
      · rw [hs] at h0; simp at h0
    show (if (pyStrip s).data.isEmpty = true then "" else _) = ""
    have hps : (pyStrip s).data = [] := by
      show stripWS s.data = []
      rw [hd]
      rfl
    simp [hps]
  · have h0' : s.data.isEmpty = false := Bool.eq_false_iff.mpr h0
    rw [h0'] at h
    simp only [Bool.false_eq_true, if_false] at h
    have hnl : normalizeList s.data = [] := by
      have hda := congrArg String.data h
      simpa using hda
    have hvan := vanish_of_normalizeList_nil hnl
    have hvan' : ∀ c ∈ stripWS s.data, vanishChar c = true := fun c hc =>
      hvan c (mem_of_mem_dropWhileWS _ (mem_rstripWS _ hc))
    have hnil : normalizeList (stripWS s.data) = [] := normalizeList_nil_of_vanish hvan'
    by_cases h1 : (pyStrip s).data.isEmpty = true
    · simp [h1]
    · have h1' : (pyStrip s).data.isEmpty = false := Bool.eq_false_iff.mpr h1
      simp only [h1', Bool.false_eq_true, if_false]
      show (⟨normalizeList (stripWS s.data)⟩ : String) = ""
      rw [hnil]

/-! ## Lemmas about the scoring loop -/

theorem mapIdx_ok_get? {α β : Type} {f : Nat → α → Except PyError β} :
    ∀ (l : List α) (k : Nat) (r : List β), mapIdx f k l = .ok r →
      ∀ (i : Nat) (a : α), l.get? i = some a →
        ∃ b, f (k + i) a = .ok b ∧ r.get? i = some b := by
  intro l
  induction l with
  | nil => intro k r _ i a hi; cases hi
  | cons q qs ih =>
    intro k r h i a hi
    simp only [mapIdx] at h
    rcases hf : f k q with e | b
    · rw [hf] at h; cases h
    · rw [hf] at h
      rcases hm : mapIdx f (k + 1) qs with e | rs
      · rw [hm] at h; cases h
      · rw [hm] at h
        simp only [Except.ok.injEq] at h
        subst h
        cases i with
        | zero =>
          simp only [List.get?_cons_zero, Option.some.injEq] at hi
          subst hi
          exact ⟨b, by simpa using hf, rfl⟩
        | succ j =>
          simp only [List.get?_cons_succ] at hi
          rcases ih (k + 1) rs hm j a hi with ⟨b', hb', hr'⟩
          refine ⟨b', ?_, by simpa using hr'⟩
          have harith : k + (j + 1) = k + 1 + j := by omega
          rw [harith]
          exact hb'

theorem mapIdx_length {α β : Type} {f : Nat → α → Except PyError β} :
    ∀ (l : List α) (k : Nat) (r : List β), mapIdx f k l = .ok r →
      r.length = l.length := by
  intro l
  induction l with
  | nil => intro k r h; cases h; rfl
  | cons q qs ih =>
    intro k r h
    simp only [mapIdx] at h
    rcases hf : f k q with e | b
    · rw [hf] at h; cases h
    · rw [hf] at h
      rcases hm : mapIdx f (k + 1) qs with e | rs
      · rw [hm] at h; cases h
      · rw [hm] at h
        simp only [Except.ok.injEq] at h
        subst h
        simp [ih (k + 1) rs hm]

theorem mapIdx_ok_of_all {α β : Type} {f : Nat → α → Except PyError β} :
    ∀ l : List α, (∀ a ∈ l, ∀ i, ∃ b, f i a = .ok b) →
      ∀ k, ∃ r, mapIdx f k l = .ok r := by
  intro l
  induction l with
  | nil => exact fun _ _ => ⟨[], rfl⟩
  | cons q qs ih =>
    intro h k
    rcases h q (List.mem_cons_self _ _) k with ⟨b, hb⟩
    rcases ih (fun a ha i => h a (List.mem_cons_of_mem _ ha) i) (k + 1) with ⟨rs, hrs⟩
    exact ⟨b :: rs, by simp [mapIdx, hb, hrs]⟩

theorem mapIdx_error_of_bad {α β : Type} {f : Nat → α → Except PyError β} :
    ∀ l : List α, (∃ a ∈ l, ∀ i, ∃ e, f i a = .error e) →
      ∀ k, ∃ e, mapIdx f k l = .error e := by
  intro l
  induction l with
  | nil => intro h; rcases h with ⟨a, ha, _⟩; cases ha
  | cons q qs ih =>
    intro h k
    rcases hf : f k q with e | b
    · exact ⟨e, by simp [mapIdx, hf]⟩
    · rcases h with ⟨a, ha, hbad⟩
      rcases List.mem_cons.mp ha with rfl | ha'
      · rcases hbad k with ⟨e, he⟩
        rw [hf] at he; cases he
      · rcases ih ⟨a, ha', hbad⟩ (k + 1) with ⟨e, he⟩
        exact ⟨e, by simp [mapIdx, hf, he]⟩

/-! ## Lemmas about the attempt history -/

theorem sortedByTime_tail {a : AttemptRecord} {l : List AttemptRecord}
    (h : sortedByTime (a :: l) = true) : sortedByTime l = true := by
  cases l with
  | nil => rfl
  | cons b t => exact ((Bool.and_eq_true _ _).mp h).2

theorem percentageOf_bounds {correct total : Nat} (h : correct ≤ total) :
    0 ≤ percentageOf correct total ∧ percentageOf correct total ≤ 100 := by
  unfold percentageOf
  by_cases h0 : total > 0
  · simp only [h0, if_true]
    constructor
    · positivity
    · have ht : (0 : Rat) < (total : Rat) := by exact_mod_cast h0
      have h1 : (correct : Rat) / (total : Rat) ≤ 1 := by
        rw [div_le_one ht]
        exact_mod_cast h
      calc (correct : Rat) / (total : Rat) * 100 ≤ 1 * 100 := by
            apply mul_le_mul_of_nonneg_right h1
            norm_num
        _ = 100 := by norm_num
  · simp [h0]

theorem fibEntry_ok {user_answers : SubmittedAnswers} {i : Nat}
    {q : RawFibQuestion} {qt a : String}
    (hq : q.question = some qt) (ha : q.answer = some a) :
    fibEntry user_answers i q = .ok
      { question := qt,
        user_answer := pyStrip ((user_answers (fibKey i)).getD ""),
        correct_answer := pyStrip a,
        is_correct := is_fuzzy_correct (pyStrip ((user_answers (fibKey i)).getD ""))
          (pyStrip a) 85 } := by
  simp [fibEntry, hq, ha]

theorem tfEntry_ok {user_answers : SubmittedAnswers} {i : Nat}
    {q : RawTFQuestion} {qt : String} {b : Bool}
    (hq : q.question = some qt) (hb : q.answer = some b) :
    tfEntry user_answers i q = .ok
      { question := qt,
        user_answer := (user_answers (tfKey i)).map fun s => pyLowerStr s == "true",
        correct_answer := b,
        is_correct :=
          ((user_answers (tfKey i)).map fun s => pyLowerStr s == "true") == some b } := by
  simp [tfEntry, hq, hb]

theorem mcqEntry_ok {user_answers : SubmittedAnswers} {i : Nat}
    {q : RawMCQQuestion} {qt a : String} {opts : List String}
    (hq : q.question = some qt) (ha : q.answer = some a) (ho : q.options = some opts) :
    mcqEntry user_answers i q = .ok
      { question := qt, options := opts,
        user_answer := (user_answers (mcqKey i)).getD "",
        correct_answer := a,
        is_correct := ((user_answers (mcqKey i)).getD "") == a } := by
  simp [mcqEntry, hq, ha, ho]

theorem fibEntry_error {user_answers : SubmittedAnswers} {i : Nat}
    {q : RawFibQuestion}
    (h : q.question.isSome = false ∨ q.answer.isSome = false) :
    ∃ e, fibEntry user_answers i q = .error e := by
  rcases ha : q.answer with _ | a
  · exact ⟨.keyError "answer", by simp [fibEntry, ha]⟩
  · rcases hq : q.question with _ | qt
    · exact ⟨.keyError "question", by simp [fibEntry, ha, hq]⟩
    · rcases h with h | h
      · rw [hq] at h; simp at h
      · rw [ha] at h; simp at h

theorem tfEntry_error {user_answers : SubmittedAnswers} {i : Nat}
    {q : RawTFQuestion}
    (h : q.question.isSome = false ∨ q.answer.isSome = false) :
    ∃ e, tfEntry user_answers i q = .error e := by
  rcases ha : q.answer with _ | b
  · exact ⟨.keyError "answer", by simp [tfEntry, ha]⟩
  · rcases hq : q.question with _ | qt
    · exact ⟨.keyError "question", by simp [tfEntry, ha, hq]⟩
    · rcases h with h | h
      · rw [hq] at h; simp at h
      · rw [ha] at h; simp at h

theorem mcqEntry_error {user_answers : SubmittedAnswers} {i : Nat}
    {q : RawMCQQuestion}
    (h : q.question.isSome = false ∨ q.answer.isSome = false) :
    ∃ e, mcqEntry user_answers i q = .error e := by
  rcases ha : q.answer with _ | a
  · exact ⟨.keyError "answer", by simp [mcqEntry, ha]⟩
  · rcases hq : q.question with _ | qt
    · exact ⟨.keyError "question", by simp [mcqEntry, ha, hq]⟩
    · rcases h with h | h
      · rw [hq] at h; simp at h
      · rw [ha] at h; simp at h

/-- On a well-formed quiz, all three sections process successfully and the
result of `calculate_score` is the percentage of correct entries together
with the three result groups. -/
theorem calculate_score_total {exam_data : ExamData} {user_answers : SubmittedAnswers}
    (hwf : wellFormedExam exam_data = true) :
    ∃ fibs tfs ms,
      mapIdx (fibEntry user_answers) 0 (exam_data.fill_in_the_blanks.getD []) = .ok fibs ∧
      mapIdx (tfEntry user_answers) 0 (exam_data.true_false.getD []) = .ok tfs ∧
      mapIdx (mcqEntry user_answers) 0 (exam_data.mcqs.getD []) = .ok ms ∧
      calculate_score exam_data user_answers = .ok (percentageOf
        ((fibs.countP fun r => r.is_correct) + (tfs.countP fun r => r.is_correct) +
          (ms.countP fun r => r.is_correct))
        (fibs.length + tfs.length + ms.length),
        { fill_in_the_blanks := fibs, true_false := tfs, mcqs := ms }) := by
  simp only [wellFormedExam, Bool.and_eq_true, List.all_eq_true] at hwf
  obtain ⟨⟨hf, ht⟩, hm⟩ := hwf
  have hf' : ∀ q ∈ exam_data.fill_in_the_blanks.getD [], ∀ i,
      ∃ b, fibEntry user_answers i q = .ok b := by
    intro q hq i
    obtain ⟨h1, h2⟩ := hf q hq
    rcases Option.isSome_iff_exists.mp h1 with ⟨qt, hqt⟩
    rcases Option.isSome_iff_exists.mp h2 with ⟨a, ha⟩
    exact ⟨_, fibEntry_ok hqt ha⟩
  have ht' : ∀ q ∈ exam_data.true_false.getD [], ∀ i,
      ∃ b, tfEntry user_answers i q = .ok b := by
    intro q hq i
    obtain ⟨h1, h2⟩ := ht q hq
    rcases Option.isSome_iff_exists.mp h1 with ⟨qt, hqt⟩
    rcases Option.isSome_iff_exists.mp h2 with ⟨b, hb⟩
    exact ⟨_, tfEntry_ok hqt hb⟩
  have hm' : ∀ q ∈ exam_data.mcqs.getD [], ∀ i,
      ∃ b, mcqEntry user_answers i q = .ok b := by
    intro q hq i
    obtain ⟨⟨h1, h2⟩, h3⟩ := hm q hq
    rcases Option.isSome_iff_exists.mp h1 with ⟨qt, hqt⟩
    rcases Option.isSome_iff_exists.mp h2 with ⟨a, ha⟩
    rcases Option.isSome_iff_exists.mp h3 with ⟨opts, ho⟩
    exact ⟨_, mcqEntry_ok hqt ha ho⟩
  obtain ⟨fibs, hfibs⟩ := mapIdx_ok_of_all _ hf' 0
  obtain ⟨tfs, htfs⟩ := mapIdx_ok_of_all _ ht' 0
  obtain ⟨ms, hms⟩ := mapIdx_ok_of_all _ hm' 0
  refine ⟨fibs, tfs, ms, hfibs, htfs, hms, ?_⟩
  unfold calculate_score
  rw [hfibs, htfs, hms]

/-- A successful `calculate_score` determines its three result groups as the
section-wise results and its percentage as the guarded ratio over them. -/
theorem calculate_score_ok_parts {exam_data : ExamData}
    {user_answers : SubmittedAnswers} {p : Rat} {res : ScoreResults}
    (h : calculate_score exam_data user_answers = .ok (p, res)) :
    mapIdx (fibEntry user_answers) 0 (exam_data.fill_in_the_blanks.getD []) =
        .ok res.fill_in_the_blanks ∧
      mapIdx (tfEntry user_answers) 0 (exam_data.true_false.getD []) =
        .ok res.true_false ∧
      mapIdx (mcqEntry user_answers) 0 (exam_data.mcqs.getD []) = .ok res.mcqs ∧
      p = percentageOf
        ((res.fill_in_the_blanks.countP fun r => r.is_correct) +
          (res.true_false.countP fun r => r.is_correct) +
          (res.mcqs.countP fun r => r.is_correct))
        (res.fill_in_the_blanks.length + res.true_false.length + res.mcqs.length) := by
  unfold calculate_score at h
  rcases hf : mapIdx (fibEntry user_answers) 0 (exam_data.fill_in_the_blanks.getD [])
    with e | fibs
  · rw [hf] at h; cases h
  · rw [hf] at h
    rcases ht : mapIdx (tfEntry user_answers) 0 (exam_data.true_false.getD [])
      with e | tfs
    · rw [ht] at h; cases h
    · rw [ht] at h
      rcases hm : mapIdx (mcqEntry user_answers) 0 (exam_data.mcqs.getD []) with e | ms
      · rw [hm] at h; cases h
      · rw [hm] at h
        simp only [Except.ok.injEq, Prod.mk.injEq] at h
        obtain ⟨hp, hres⟩ := h
        subst hres
        exact ⟨by simp, by simp, by simp, by simpa using hp.symm⟩

theorem last_ge_of_sorted :
    ∀ (l : List AttemptRecord) (a : AttemptRecord),
      sortedByTime (a :: l) = true →
      ∃ r, (a :: l).getLast? = some r ∧ a.submittedAt ≤ r.submittedAt := by
  intro l
  induction l with
  | nil => exact fun a _ => ⟨a, rfl, le_refl _⟩
  | cons b t ih =>
    intro a h
    have hab : a.submittedAt ≤ b.submittedAt := by
      have := ((Bool.and_eq_true _ _).mp h).1
      simpa using this
    rcases ih b (sortedByTime_tail h) with ⟨r, hr, hbr⟩
    exact ⟨r, by rw [List.getLast?_cons_cons]; exact hr, le_trans hab hbr⟩

/-! ## Claim theorems -/

/-- C1: for every quiz definition and submission on which the scorer returns
a report, the percentage satisfies `0 <= percentage <= 100`. -/
theorem C1_score_bounds (exam_data : ExamData) (user_answers : SubmittedAnswers)
    (p : Rat) (res : ScoreResults)
    (h : calculate_score exam_data user_answers = .ok (p, res)) :
    0 ≤ p ∧ p ≤ 100 := by
  obtain ⟨-, -, -, hp⟩ := calculate_score_ok_parts h
  rw [hp]
  refine percentageOf_bounds ?_
  have h1 : (res.fill_in_the_blanks.countP fun r => r.is_correct) ≤
      res.fill_in_the_blanks.length := List.countP_le_length _
  have h2 : (res.true_false.countP fun r => r.is_correct) ≤
      res.true_false.length := List.countP_le_length _
  have h3 : (res.mcqs.countP fun r => r.is_correct) ≤ res.mcqs.length :=
    List.countP_le_length _
  omega

/-- Witness for C1 at a one-question multiple-choice quiz answered correctly. -/
theorem C1_score_bounds_witness :
    calculate_score ⟨none, none, some [⟨some "2+2?", some ["3", "4", "5"], some "4"⟩]⟩
        (fun k => if k = "mcq_0" then some "4" else none) =
      .ok (100, ⟨[], [], [⟨"2+2?", ["3", "4", "5"], "4", "4", true⟩]⟩) ∧
      (0 ≤ (100 : Rat) ∧ (100 : Rat) ≤ 100) := by
  constructor
  · with_unfolding_all decide
  · exact C1_score_bounds ⟨none, none, some [⟨some "2+2?", some ["3", "4", "5"], some "4"⟩]⟩
      (fun k => if k = "mcq_0" then some "4" else none) 100
      ⟨[], [], [⟨"2+2?", ["3", "4", "5"], "4", "4", true⟩]⟩
      (by with_unfolding_all decide)

/-- C2 (amended): for the true/false question at index i, a present `tf_i`
value is lowercased and compared to the literal "true", and the question is
correct iff that boolean strictly equals the expected one; an absent `tf_i`
key however leaves the recorded user answer as `None`, which is marked
incorrect regardless of the expected boolean (Python `None == False` is
`False`), rather than being scored as the boolean `false`. -/
theorem C2_tf_scoring (exam_data : ExamData) (user_answers : SubmittedAnswers)
    (i : Nat) (q : RawTFQuestion) (qt : String) (b : Bool)
    (p : Rat) (res : ScoreResults)
    (hq : (exam_data.true_false.getD []).get? i = some q)
    (hqt : q.question = some qt) (hb : q.answer = some b)
    (hcs : calculate_score exam_data user_answers = .ok (p, res)) :
    res.true_false.get? i = some
      { question := qt,
        user_answer := (user_answers (tfKey i)).map fun s => pyLowerStr s == "true",
        correct_answer := b,
        is_correct :=
          ((user_answers (tfKey i)).map fun s => pyLowerStr s == "true") == some b } := by
  obtain ⟨-, htfs, -, -⟩ := calculate_score_ok_parts hcs
  rcases mapIdx_ok_get? _ 0 res.true_false htfs i q hq with ⟨entry, hentry, hget⟩
  rw [tfEntry_ok hqt hb] at hentry
  simp only [Except.ok.injEq] at hentry
  rw [← hentry] at hget
  simpa using hget

/-- Witness for C2 (amended): a present `tf_0` value "TRUE" against expected
`true` is recorded as the boolean `true` and scored correct. -/
theorem C2_tf_scoring_witness :
    calculate_score ⟨none, some [⟨some "Q", some true⟩], none⟩
        (fun k => if k = "tf_0" then some "TRUE" else none) =
      .ok (100, ⟨[], [⟨"Q", some true, true, true⟩], []⟩) ∧
    (⟨[], [⟨"Q", some true, true, true⟩], []⟩ : ScoreResults).true_false.get? 0 =
      some ⟨"Q", some true, true, true⟩ := by
  constructor
  · with_unfolding_all decide
  · exact C2_tf_scoring ⟨none, some [⟨some "Q", some true⟩], none⟩
      (fun k => if k = "tf_0" then some "TRUE" else none) 0 ⟨some "Q", some true⟩
      "Q" true 100 ⟨[], [⟨"Q", some true, true, true⟩], []⟩ rfl rfl rfl
      (by with_unfolding_all decide)

/-- C2 counterexample: expected answer `false` and no `tf_0` key submitted:
the claimed reading ("absent treated as false, then compared strictly to the
expected boolean") yields correct, but the scorer records
`is_correct = false` because the absent answer stays `None`. -/
theorem C2_counterexample :
    (tfInterpSpec ((fun _ => none : SubmittedAnswers) (tfKey 0)) == false) = true ∧
      calculate_score ⟨none, some [⟨some "Q", some false⟩], none⟩ (fun _ => none) =
        .ok (0, ⟨[], [⟨"Q", none, false, false⟩], []⟩) := by
  constructor
  · decide
  · with_unfolding_all decide

/-- C3 (amended): a question entry missing a required field makes the scorer
fail fast with a KeyError naming only the missing field (not the question
kind or index, see `C3_counterexample`), and on well-formed quizzes the
scorer is total. -/
theorem C3_validation (exam_data : ExamData) (user_answers : SubmittedAnswers) :
    (wellFormedExam exam_data = true →
      ∃ p res, calculate_score exam_data user_answers = .ok (p, res)) ∧
    (hasMissingField exam_data = true →
      ∃ e, calculate_score exam_data user_answers = .error e) := by
  constructor
  · intro hwf
    obtain ⟨fibs, tfs, ms, -, -, -, hcs⟩ := calculate_score_total hwf
    exact ⟨_, _, hcs⟩
  · intro hmf
    simp only [hasMissingField, Bool.or_eq_true, List.any_eq_true] at hmf
    unfold calculate_score
    rcases hmf with (⟨q, hq, hbad⟩ | ⟨q, hq, hbad⟩) | ⟨q, hq, hbad⟩
    · have hbad' : q.question.isSome = false ∨ q.answer.isSome = false := by
        simpa using hbad
      obtain ⟨e, he⟩ := @mapIdx_error_of_bad _ _ (fibEntry user_answers)
        (exam_data.fill_in_the_blanks.getD []) ⟨q, hq, fun i => fibEntry_error hbad'⟩ 0
      exact ⟨e, by rw [he]⟩
    · rcases hfm : mapIdx (fibEntry user_answers) 0
        (exam_data.fill_in_the_blanks.getD []) with e | fibs
      · exact ⟨e, rfl⟩
      · have hbad' : q.question.isSome = false ∨ q.answer.isSome = false := by
          simpa using hbad
        obtain ⟨e, he⟩ := @mapIdx_error_of_bad _ _ (tfEntry user_answers)
          (exam_data.true_false.getD []) ⟨q, hq, fun i => tfEntry_error hbad'⟩ 0
        exact ⟨e, by rw [he]⟩
    · rcases hfm : mapIdx (fibEntry user_answers) 0
        (exam_data.fill_in_the_blanks.getD []) with e | fibs
      · exact ⟨e, rfl⟩
      · rcases htm : mapIdx (tfEntry user_answers) 0
          (exam_data.true_false.getD []) with e | tfs
        · exact ⟨e, rfl⟩
        · have hbad' : q.question.isSome = false ∨ q.answer.isSome = false := by
            simpa using hbad
          obtain ⟨e, he⟩ := @mapIdx_error_of_bad _ _ (mcqEntry user_answers)
            (exam_data.mcqs.getD []) ⟨q, hq, fun i => mcqEntry_error hbad'⟩ 0
          exact ⟨e, by rw [he]⟩

/-- Witness for C3: a well-formed one-question quiz scores, and a quiz whose
fill-in-the-blank entry has no "answer" key raises. -/
theorem C3_validation_witness :
    (∃ p res, calculate_score ⟨none, none, some [⟨some "2+2?", some ["3", "4"], some "4"⟩]⟩
      (fun _ => none) = .ok (p, res)) ∧
    (∃ e, calculate_score ⟨some [⟨some "Q", none⟩], none, none⟩ (fun _ => none) =
      .error e) := by
  constructor
  · exact (C3_validation ⟨none, none, some [⟨some "2+2?", some ["3", "4"], some "4"⟩]⟩
      (fun _ => none)).1 (by decide)
  · exact (C3_validation ⟨some [⟨some "Q", none⟩], none, none⟩ (fun _ => none)).2
      (by decide)

/-- C3 counterexample: a fill-in-the-blank entry missing "answer" at index 0
and a true/false entry missing "answer" at index 1 produce the identical
unstructured error value, so the raised error names neither the offending
question kind nor the index, contrary to the claim. -/
theorem C3_counterexample :
    calculate_score ⟨some [⟨some "Q0", none⟩], none, none⟩ (fun _ => none) =
        .error (.keyError "answer") ∧
      calculate_score ⟨none, some [⟨some "T0", some true⟩, ⟨some "T1", none⟩], none⟩
          (fun _ => none) =
        .error (.keyError "answer") := by
  constructor
  · decide
  · decide

theorem mem_of_getLastAtt {r : AttemptRecord} :
    ∀ l : List AttemptRecord, l.getLast? = some r → r ∈ l := by
  intro l
  induction l with
  | nil => intro h; cases h
  | cons x t ih =>
    intro h
    cases t with
    | nil =>
      simp only [List.getLast?_singleton, Option.some.injEq] at h
      subst h
      exact List.mem_cons_self _ _
    | cons b t' =>
      rw [List.getLast?_cons_cons] at h
      exact List.mem_cons_of_mem _ (ih h)

theorem mem_le_last_of_sorted {a : AttemptRecord} :
    ∀ l : List AttemptRecord, sortedByTime l = true → a ∈ l →
      ∃ r, l.getLast? = some r ∧ a.submittedAt ≤ r.submittedAt := by
  intro l
  induction l with
  | nil => intro _ h; cases h
  | cons x t ih =>
    intro hs hm
    rcases List.mem_cons.mp hm with rfl | hm'
    · exact last_ge_of_sorted t a hs
    · rcases ih (sortedByTime_tail hs) hm' with ⟨r, hr, har⟩
      cases t with
      | nil => cases hm'
      | cons b t' =>
        exact ⟨r, by rw [List.getLast?_cons_cons]; exact hr, har⟩

/-- C4 (amended): for a time-ordered history, the duplicate-submission check
fires iff a most recent attempt exists and `now - mostRecent.submittedAt ≤
window` — a NON-strict comparison, because the source tests
`submitted_at >= now - window` (the claimed strict `<` is refuted by
`C4_counterexample`); the source instantiates window with 5 seconds. -/
theorem C4_duplicate_window (history : List AttemptRecord) (now window : Int)
    (hs : sortedByTime history = true) :
    isDuplicateSubmission history now window = true ↔
      ∃ r, history.getLast? = some r ∧ now - r.submittedAt ≤ window := by
  constructor
  · intro h
    rcases List.any_eq_true.mp h with ⟨x, hx, hcond⟩
    have hcond' : now - window ≤ x.submittedAt := by simpa using hcond
    rcases mem_le_last_of_sorted history hs hx with ⟨r, hr, hxr⟩
    exact ⟨r, hr, by omega⟩
  · rintro ⟨r, hr, hcond⟩
    refine List.any_eq_true.mpr ⟨r, mem_of_getLastAtt history hr, ?_⟩
    simp only [decide_eq_true_eq]
    omega

/-- Witness for C4 (amended) on a sorted two-attempt history. -/
theorem C4_duplicate_window_witness :
    sortedByTime [⟨0⟩, ⟨3⟩] = true ∧
      (isDuplicateSubmission [⟨0⟩, ⟨3⟩] 4 5 = true ↔
        ∃ r, ([⟨0⟩, ⟨3⟩] : List AttemptRecord).getLast? = some r ∧
          4 - r.submittedAt ≤ 5) :=
  ⟨by decide, C4_duplicate_window [⟨0⟩, ⟨3⟩] 4 5 (by decide)⟩

/-- C4 counterexample: one attempt at time 0, now = 5, window = 5 seconds:
the code flags a duplicate (`submitted_at >= now - 5` holds with equality)
whereas the claimed strict `now - mostRecent.submittedAt < 5` fails. -/
theorem C4_counterexample :
    isDuplicateSubmission [⟨0⟩] 5 5 = true ∧
      isDuplicateSubmissionSpec [⟨0⟩] 5 5 = false := by
  decide

/-- C5: the stale-token check fires iff
`claimedAttemptNumber ≤ attemptCount(history)`; in particular for a history
of length 2, claimed numbers 1 and 2 are stale and 3 is not. -/
theorem C5_stale_token (claimed : Int) (history : List AttemptRecord) :
    (isStaleAttemptToken claimed history = true ↔
      claimed ≤ (attemptCount history : Int)) ∧
    (history.length = 2 →
      isStaleAttemptToken 1 history = true ∧ isStaleAttemptToken 2 history = true ∧
        isStaleAttemptToken 3 history = false) := by
  constructor
  · simp [isStaleAttemptToken]
  · intro h2
    unfold isStaleAttemptToken attemptCount
    rw [h2]
    decide

/-- Witness for C5 on a history of length 2. -/
theorem C5_stale_token_witness :
    (isStaleAttemptToken 1 [⟨0⟩, ⟨7⟩] = true ↔
      (1 : Int) ≤ (attemptCount [⟨0⟩, ⟨7⟩] : Int)) ∧
    (isStaleAttemptToken 1 [⟨0⟩, ⟨7⟩] = true ∧
      isStaleAttemptToken 2 [⟨0⟩, ⟨7⟩] = true ∧
      isStaleAttemptToken 3 [⟨0⟩, ⟨7⟩] = false) :=
  ⟨(C5_stale_token 1 [⟨0⟩, ⟨7⟩]).1, (C5_stale_token 1 [⟨0⟩, ⟨7⟩]).2 (by decide)⟩

/-- C6: for a history of length N the next attempt number is N + 1, and the
max-attempts gate admits a new attempt iff N < maxAttempts; in particular it
blocks at maxAttempts = N and admits at maxAttempts = N + 1. -/
theorem C6_attempt_accounting (history : List AttemptRecord) (N maxA : Nat)
    (h : history.length = N) :
    nextAttemptNumber history = N + 1 ∧
      (canAttempt history maxA = true ↔ N < maxA) ∧
      canAttempt history N = false ∧ canAttempt history (N + 1) = true := by
  subst h
  refine ⟨rfl, ?_, ?_, ?_⟩
  · simp [canAttempt, attemptCount]
  · simp [canAttempt, attemptCount]
  · simp [canAttempt, attemptCount]

/-- Witness for C6 on a history of length 2 with maxAttempts 2. -/
theorem C6_attempt_accounting_witness :
    ([⟨0⟩, ⟨5⟩] : List AttemptRecord).length = 2 ∧
      (nextAttemptNumber [⟨0⟩, ⟨5⟩] = 3 ∧
        (canAttempt [⟨0⟩, ⟨5⟩] 2 = true ↔ 2 < 2) ∧
        canAttempt [⟨0⟩, ⟨5⟩] 2 = false ∧ canAttempt [⟨0⟩, ⟨5⟩] 3 = true) :=
  ⟨by decide, C6_attempt_accounting [⟨0⟩, ⟨5⟩] 2 2 (by decide)⟩

/-- C7: a quiz with zero questions in every category yields percentage 0 and
three empty result groups; the percentage division is reached only under the
`total_questions > 0` guard, so the zero-question case never divides. -/
theorem C7_empty_quiz (exam_data : ExamData) (user_answers : SubmittedAnswers)
    (h1 : exam_data.fill_in_the_blanks.getD [] = [])
    (h2 : exam_data.true_false.getD [] = [])
    (h3 : exam_data.mcqs.getD [] = []) :
    calculate_score exam_data user_answers =
      .ok (0, { fill_in_the_blanks := [], true_false := [], mcqs := [] }) := by
  unfold calculate_score
  rw [h1, h2, h3]
  rfl

/-- Witness for C7: one category absent, two present but empty. -/
theorem C7_empty_quiz_witness :
    (⟨some [], some [], none⟩ : ExamData).fill_in_the_blanks.getD [] = [] ∧
      (⟨some [], some [], none⟩ : ExamData).true_false.getD [] = [] ∧
      (⟨some [], some [], none⟩ : ExamData).mcqs.getD [] = [] ∧
      calculate_score ⟨some [], some [], none⟩ (fun _ => none) =
        .ok (0, ⟨[], [], []⟩) :=
  ⟨rfl, rfl, rfl, C7_empty_quiz ⟨some [], some [], none⟩ (fun _ => none) rfl rfl rfl⟩

/-- C8: the answer normalizer is idempotent:
`normalize (normalize s) = normalize s` for every string s. -/
theorem C8_normalize_idem (s : String) : normalize (normalize s) = normalize s := by
  by_cases h : s.data.isEmpty = true
  · have h1 : normalize s = "" := by simp [normalize, h]
    rw [h1]
    rfl
  · have hne : s.data.isEmpty = false := Bool.eq_false_iff.mpr h
    have h1 : normalize s = ⟨normalizeList s.data⟩ := by simp [normalize, hne]
    rw [h1]
    by_cases h2 : (normalizeList s.data).isEmpty = true
    · have h3 : normalizeList s.data = [] := by
        cases hnl : normalizeList s.data
        · rfl
        · rw [hnl] at h2; simp at h2
      show normalize ⟨normalizeList s.data⟩ = ⟨normalizeList s.data⟩
      rw [h3]
      rfl
    · have h4 : (⟨normalizeList s.data⟩ : String).data.isEmpty = false :=
        Bool.eq_false_iff.mpr h2
      simp [normalize, h4, normalizeList_idem]

/-- C9 (amended): each QuestionResult stores the question text, the expected
answer, the correctness boolean and (for MCQ) the option list; but the
submitted answer is stored raw only for MCQ — for fill-in-the-blank both the user and
expected answers are stored stripped, and for true/false the user answer is
stored as the coerced boolean (or None when absent), see `C9_counterexample`. -/
theorem C9_result_fields (exam_data : ExamData) (user_answers : SubmittedAnswers)
    (p : Rat) (res : ScoreResults)
    (hcs : calculate_score exam_data user_answers = .ok (p, res)) :
    (∀ i q qt a, (exam_data.fill_in_the_blanks.getD []).get? i = some q →
      q.question = some qt → q.answer = some a →
      res.fill_in_the_blanks.get? i = some
        { question := qt,
          user_answer := pyStrip ((user_answers (fibKey i)).getD ""),
          correct_answer := pyStrip a,
          is_correct := is_fuzzy_correct (pyStrip ((user_answers (fibKey i)).getD ""))
            (pyStrip a) 85 }) ∧
    (∀ i q qt b, (exam_data.true_false.getD []).get? i = some q →
      q.question = some qt → q.answer = some b →
      res.true_false.get? i = some
        { question := qt,
          user_answer := (user_answers (tfKey i)).map fun s => pyLowerStr s == "true",
          correct_answer := b,
          is_correct := ((user_answers (tfKey i)).map fun s => pyLowerStr s == "true")
            == some b }) ∧
    (∀ i q qt a opts, (exam_data.mcqs.getD []).get? i = some q →
      q.question = some qt → q.answer = some a → q.options = some opts →
      res.mcqs.get? i = some
        { question := qt, options := opts,
          user_answer := (user_answers (mcqKey i)).getD "",
          correct_answer := a,
          is_correct := ((user_answers (mcqKey i)).getD "") == a }) := by
  obtain ⟨hfibs, htfs, hms, -⟩ := calculate_score_ok_parts hcs
  refine ⟨?_, ?_, ?_⟩
  · intro i q qt a hq hqt ha
    rcases mapIdx_ok_get? _ 0 res.fill_in_the_blanks hfibs i q hq with
      ⟨entry, hentry, hget⟩
    rw [fibEntry_ok hqt ha] at hentry
    simp only [Except.ok.injEq] at hentry
    rw [← hentry] at hget
    simpa using hget
  · intro i q qt b hq hqt hb
    rcases mapIdx_ok_get? _ 0 res.true_false htfs i q hq with ⟨entry, hentry, hget⟩
    rw [tfEntry_ok hqt hb] at hentry
    simp only [Except.ok.injEq] at hentry
    rw [← hentry] at hget
    simpa using hget
  · intro i q qt a opts hq hqt ha ho
    rcases mapIdx_ok_get? _ 0 res.mcqs hms i q hq with ⟨entry, hentry, hget⟩
    rw [mcqEntry_ok hqt ha ho] at hentry
    simp only [Except.ok.injEq] at hentry
    rw [← hentry] at hget
    simpa using hget

/-- Witness for C9 (amended) on a quiz with one question of each kind. -/
theorem C9_result_fields_witness :
    calculate_score
        ⟨some [⟨some "Capital?", some "Paris"⟩], some [⟨some "Q", some true⟩],
          some [⟨some "2+2?", some ["3", "4"], some "4"⟩]⟩
        (fun k => if k = "fib_0" then some " Paris "
          else if k = "mcq_0" then some "4" else none) =
      .ok (200 / 3,
        ⟨[⟨"Capital?", "Paris", "Paris", true⟩], [⟨"Q", none, true, false⟩],
          [⟨"2+2?", ["3", "4"], "4", "4", true⟩]⟩) ∧
    (⟨[⟨"Capital?", "Paris", "Paris", true⟩], [⟨"Q", none, true, false⟩],
        [⟨"2+2?", ["3", "4"], "4", "4", true⟩]⟩ : ScoreResults).fill_in_the_blanks.get? 0 =
      some ⟨"Capital?", "Paris", "Paris", true⟩ ∧
    (⟨[⟨"Capital?", "Paris", "Paris", true⟩], [⟨"Q", none, true, false⟩],
        [⟨"2+2?", ["3", "4"], "4", "4", true⟩]⟩ : ScoreResults).true_false.get? 0 =
      some ⟨"Q", none, true, false⟩ ∧
    (⟨[⟨"Capital?", "Paris", "Paris", true⟩], [⟨"Q", none, true, false⟩],
        [⟨"2+2?", ["3", "4"], "4", "4", true⟩]⟩ : ScoreResults).mcqs.get? 0 =
      some ⟨"2+2?", ["3", "4"], "4", "4", true⟩ := by
  have h := C9_result_fields
    ⟨some [⟨some "Capital?", some "Paris"⟩], some [⟨some "Q", some true⟩],
      some [⟨some "2+2?", some ["3", "4"], some "4"⟩]⟩
    (fun k => if k = "fib_0" then some " Paris "
      else if k = "mcq_0" then some "4" else none)
    (200 / 3)
    ⟨[⟨"Capital?", "Paris", "Paris", true⟩], [⟨"Q", none, true, false⟩],
      [⟨"2+2?", ["3", "4"], "4", "4", true⟩]⟩
    (by with_unfolding_all decide)
  refine ⟨by with_unfolding_all decide, ?_, ?_, ?_⟩
  · exact (h.1 0 ⟨some "Capital?", some "Paris"⟩ "Capital?" "Paris" rfl rfl rfl).trans
      (by with_unfolding_all decide)
  · exact (h.2.1 0 ⟨some "Q", some true⟩ "Q" true rfl rfl rfl).trans
      (by with_unfolding_all decide)
  · exact (h.2.2 0 ⟨some "2+2?", some ["3", "4"], some "4"⟩ "2+2?" "4" ["3", "4"]
      rfl rfl rfl rfl).trans (by with_unfolding_all decide)

/-- C9 counterexample: the submitted fill-in-the-blank answer " Paris " is stored
stripped as "Paris" in the QuestionResult, not raw as submitted. -/
theorem C9_counterexample :
    calculate_score ⟨some [⟨some "Capital?", some "Paris"⟩], none, none⟩
        (fun k => if k = "fib_0" then some " Paris " else none) =
      .ok (100, ⟨[⟨"Capital?", "Paris", "Paris", true⟩], [], []⟩) ∧
      (" Paris " : String) ≠ "Paris" := by
  constructor
  · with_unfolding_all decide
  · decide

/-- C10: when both the submitted fill-in-the-blank answer and the expected
answer normalize to the empty string, the fuzzy matcher returns true (two
empty strings have similarity 100 ≥ 85) and the scorer records the question
as correct. -/
theorem C10_blank_fuzzy (exam_data : ExamData) (user_answers : SubmittedAnswers)
    (i : Nat) (q : RawFibQuestion) (qt a : String) (p : Rat) (res : ScoreResults)
    (hq : (exam_data.fill_in_the_blanks.getD []).get? i = some q)
    (hqt : q.question = some qt) (ha : q.answer = some a)
    (hu : normalize ((user_answers (fibKey i)).getD "") = "")
    (hc : normalize a = "")
    (hcs : calculate_score exam_data user_answers = .ok (p, res)) :
    is_fuzzy_correct (pyStrip ((user_answers (fibKey i)).getD "")) (pyStrip a) 85 =
        true ∧
      res.fill_in_the_blanks.get? i = some
        { question := qt,
          user_answer := pyStrip ((user_answers (fibKey i)).getD ""),
          correct_answer := pyStrip a, is_correct := true } := by
  have hu' := normalize_pyStrip_empty hu
  have hc' := normalize_pyStrip_empty hc
  have hfz : is_fuzzy_correct (pyStrip ((user_answers (fibKey i)).getD ""))
      (pyStrip a) 85 = true := by
    unfold is_fuzzy_correct
    rw [hu', hc']
    decide
  refine ⟨hfz, ?_⟩
  obtain ⟨hfibs, -, -, -⟩ := calculate_score_ok_parts hcs
  rcases mapIdx_ok_get? _ 0 res.fill_in_the_blanks hfibs i q hq with
    ⟨entry, hentry, hget⟩
  rw [fibEntry_ok hqt ha] at hentry
  simp only [Except.ok.injEq] at hentry
  rw [← hentry] at hget
  simpa [hfz] using hget

/-- Witness for C10: an expected answer of punctuation only ("---") with the
field left unanswered is scored correct. -/
theorem C10_blank_fuzzy_witness :
    is_fuzzy_correct (pyStrip "") (pyStrip "---") 85 = true ∧
      (⟨[⟨"Q", "", "---", true⟩], [], []⟩ : ScoreResults).fill_in_the_blanks.get? 0 =
        some ⟨"Q", "", "---", true⟩ :=
  C10_blank_fuzzy ⟨some [⟨some "Q", some "---"⟩], none, none⟩ (fun _ => none) 0
    ⟨some "Q", some "---"⟩ "Q" "---" 100 ⟨[⟨"Q", "", "---", true⟩], [], []⟩
    rfl rfl rfl (by decide) (by decide) (by with_unfolding_all decide)

end QuizApp
